import Mathlib

/-!
Verification of the schedule-expansion core of the fitness-coaching app
(`src/lib/workoutPlan.ts`, function `generatePlanSessions`), developed as a
shallow embedding of the TypeScript/JavaScript source.

Modelling conventions:
* JavaScript runtime values reachable through `schedule_data : any` are
  embedded as `JSVal`.  Property access `v[k]` is `jsGet v k : Option JSVal`;
  it is `none` exactly when the receiver is `null`/`undefined`, which in
  JavaScript throws a `TypeError` (caught by the function's outer
  `try`/`catch`).  On every other receiver property access succeeds; on
  non-object receivers the keys the code ever reads (weekday names, decimal
  week numbers, `date`/`templateId`/`label`) evaluate to `undefined`.
* Calendar dates are civil triples `(year, month, day)`; the host timezone is
  fixed to UTC so `toLocaleDateString`'s weekday and `toISOString`'s date
  agree on the same civil day.  A JS `Date` at UTC midnight of a valid civil
  date compares (via its timestamp) exactly as the lexicographic order on the
  triple, `setDate(getDate() + 1)` is `nextDay`, `getDate()` is the `d`
  field, and the weekday is the classical days-from-civil count modulo 7.
* `new Date(string)` on the ISO form `YYYY-MM-DD` is `parseDate`; strings
  that do not have that shape (or denote no real calendar day) give an
  invalid date (`NaN` timestamp), whose comparisons are all false, so the
  day-walk loops never run: this is the `none` branch of `parseDate`.
* The `while (currentDate <= endDate)` day walk is split into the visited
  day sequence (`dayList`, fuel-based and provably complete) and one loop
  per `schedule_type` folding the per-day body over it, preserving the
  emission order and the thrown-exception behaviour of the source.
* The only effect, the single batch insert, is abstracted by a boolean
  oracle (`insertOk`), and for persisted-state claims by list append.
-/

namespace FitApp

/-- Embedded JavaScript runtime values (the reachable fragment). -/
inductive JSVal where
  | str (s : String)
  | num (n : Int)
  | bool (b : Bool)
  | null
  | undefined
  | obj (fields : List (String × JSVal))
  | arr (elems : List JSVal)

/-- JavaScript truthiness (`if (v)`). -/
def truthy : JSVal → Bool
  | .str s => s ≠ ""
  | .num n => n ≠ 0
  | .bool b => b
  | .null => false
  | .undefined => false
  | .obj _ => true
  | .arr _ => true

/-- Nullish receivers: property access on them throws a `TypeError`. -/
def isNullish : JSVal → Bool
  | .null => true
  | .undefined => true
  | _ => false

/-- Value of a decimal string that is a canonical array index. -/
def digitsVal (cs : List Char) : Nat :=
  cs.foldl (fun a c => a * 10 + (c.toNat - 48)) 0

/-- Canonical array-index keys: nonempty digit strings without leading zero. -/
def jsIndex? (k : String) : Option Nat :=
  match k.data with
  | [] => none
  | c :: cs =>
    if (c :: cs).all Char.isDigit ∧ (c = '0' → cs = []) then
      some (digitsVal (c :: cs))
    else none

/-- JavaScript property read `v[k]`: `none` models a thrown `TypeError`
(nullish receiver); otherwise the property value (`undefined` if absent). -/
def jsGet : JSVal → String → Option JSVal
  | .null, _ => none
  | .undefined, _ => none
  | .obj fields, k =>
    some (((fields.find? (fun p => p.1 == k)).map (fun p => p.2)).getD .undefined)
  | .arr elems, k =>
    some (if k = "length" then .num elems.length else
      match jsIndex? k with
      | some i => elems.getD i .undefined
      | none => .undefined)
  | _, _ => some .undefined

/-- Civil calendar date, as carried by a JS `Date` at UTC midnight. -/
structure CalDate where
  y : Nat
  m : Nat
  d : Nat

/-- Gregorian leap year, as implemented by the JS `Date` object. -/
def isLeap (y : Nat) : Bool :=
  (y % 4 == 0 && !(y % 100 == 0)) || y % 400 == 0

/-- Length of a month in the proleptic Gregorian calendar. -/
def daysInMonth (y m : Nat) : Nat :=
  if m = 2 then (if isLeap y then 29 else 28)
  else if m = 4 ∨ m = 6 ∨ m = 9 ∨ m = 11 then 30 else 31

/-- The date denotes a real calendar day. -/
def validD (t : CalDate) : Bool :=
  decide (1 ≤ t.m ∧ t.m ≤ 12 ∧ 1 ≤ t.d ∧ t.d ≤ daysInMonth t.y t.m)

/-- Timestamp order of two (valid) dates: lexicographic on the triple.
This is what `currentDate <= endDate` compares. -/
def dleD (a b : CalDate) : Bool :=
  decide (a.y < b.y ∨ (a.y = b.y ∧ (a.m < b.m ∨ (a.m = b.m ∧ a.d ≤ b.d))))

/-- Strict timestamp order on dates. -/
def dltD (a b : CalDate) : Bool :=
  decide (a.y < b.y ∨ (a.y = b.y ∧ (a.m < b.m ∨ (a.m = b.m ∧ a.d < b.d))))

/-- `currentDate.setDate(currentDate.getDate() + 1)`: step one day forward,
with the JS end-of-month/era normalization. -/
def nextDay (t : CalDate) : CalDate :=
  if t.d < daysInMonth t.y t.m then ⟨t.y, t.m, t.d + 1⟩
  else if t.m < 12 then ⟨t.y, t.m + 1, 1⟩
  else ⟨t.y + 1, 1, 1⟩

/-- Classical days-from-civil count (shifted 400 years to stay in `Nat`;
400 Gregorian years are exactly 20871 weeks, so weekday mod 7 is unshifted). -/
def daysN (t : CalDate) : Nat :=
  let y := t.y + 400
  let yy := if t.m ≤ 2 then y - 1 else y
  let era := yy / 400
  let yoe := yy % 400
  let mp := (t.m + 9) % 12
  let doy := (153 * mp + 2) / 5 + t.d - 1
  let doe := yoe * 365 + yoe / 4 - yoe / 100 + doy
  era * 146097 + doe

/-- English long-form weekday names, indexed by `daysN` modulo 7. -/
def dayNames : List String :=
  ["Wednesday", "Thursday", "Friday", "Saturday", "Sunday", "Monday", "Tuesday"]

/-- `currentDate.toLocaleDateString('en-US', { weekday: 'long' })`. -/
def weekdayName (t : CalDate) : String :=
  dayNames.getD (daysN t % 7) ""

/-- Numeric value of a decimal digit character. -/
def digitVal (c : Char) : Nat := c.toNat - 48

/-- Decimal digit characters. -/
def isDigitC (c : Char) : Bool := decide (48 ≤ c.toNat ∧ c.toNat ≤ 57)

/-- The decimal digit character for `n % 10`. -/
def digitChar (n : Nat) : Char :=
  if n % 10 = 0 then '0' else if n % 10 = 1 then '1'
  else if n % 10 = 2 then '2' else if n % 10 = 3 then '3'
  else if n % 10 = 4 then '4' else if n % 10 = 5 then '5'
  else if n % 10 = 6 then '6' else if n % 10 = 7 then '7'
  else if n % 10 = 8 then '8' else '9'

/-- Character-level core of `parseDate`. -/
def parseDateL (cs : List Char) : Option CalDate :=
  match cs with
  | [y1, y2, y3, y4, h1, m1, m2, h2, d1, d2] =>
    if h1 == '-' && h2 == '-' && isDigitC y1 && isDigitC y2 && isDigitC y3 &&
        isDigitC y4 && isDigitC m1 && isDigitC m2 && isDigitC d1 && isDigitC d2 then
      let y := digitVal y1 * 1000 + digitVal y2 * 100 + digitVal y3 * 10 + digitVal y4
      let m := digitVal m1 * 10 + digitVal m2
      let d := digitVal d1 * 10 + digitVal d2
      if validD ⟨y, m, d⟩ then some ⟨y, m, d⟩ else none
    else none
  | _ => none

/-- `new Date(s)` on the ISO calendar-date form `YYYY-MM-DD`; `none` is the
invalid date (`NaN` timestamp), whose comparisons are all false. -/
def parseDate (s : String) : Option CalDate :=
  parseDateL s.data

/-- `currentDate.toISOString().split('T')[0]`: the `YYYY-MM-DD` form. -/
def isoFormat (t : CalDate) : String :=
  ⟨[digitChar (t.y / 1000), digitChar (t.y / 100), digitChar (t.y / 10),
    digitChar t.y, '-', digitChar (t.m / 10), digitChar t.m, '-',
    digitChar (t.d / 10), digitChar t.d]⟩

/-- Fuel upper bound for the day walk from `cur` to `last` (a per-iteration
strictly decreasing measure; see `fuelD_nextDay_lt`). -/
def fuelD (cur last : CalDate) : Nat :=
  (last.y + 1 - cur.y) * 372 + (12 - cur.m) * 31 + (31 - cur.d)

/-- The sequence of days visited by `while (currentDate <= endDate)`,
fuel-based so that it is structurally recursive and executable. -/
def dayListF : Nat → CalDate → CalDate → List CalDate
  | 0, _, _ => []
  | f + 1, cur, last =>
    if dleD cur last then cur :: dayListF f (nextDay cur) last else []

/-- All days visited by the walk from `s` to `e` (the fuel is sufficient). -/
def dayList (s e : CalDate) : List CalDate :=
  dayListF (fuelD s e) s e

/-- One row of the `sessions` array built by `generatePlanSessions` (the
`Omit<PlanSession, 'id' | 'created_at' | 'updated_at'>` object literals).
Keys the literal does not mention hold `undefined`. -/
structure SessionRow where
  plan_id : String
  template_id : JSVal
  scheduled_date : JSVal
  scheduled_time : JSVal
  day_of_week : JSVal
  week_number : JSVal
  status : String
  notes : JSVal

/-- The row pushed by the `weekly` branch for day `t` with template `v`. -/
def mkWeeklyRow (pid : String) (t : CalDate) (v : JSVal) : SessionRow :=
  ⟨pid, v, .str (isoFormat t), .undefined, .str (weekdayName t), .undefined,
    "scheduled", .undefined⟩

/-- The row pushed by the `monthly` branch for day `t`, week-of-month bucket
`wk`, and template `v`. -/
def mkMonthlyRow (pid : String) (t : CalDate) (wk : Nat) (v : JSVal) : SessionRow :=
  ⟨pid, v, .str (isoFormat t), .undefined, .str (weekdayName t), .num wk,
    "scheduled", .undefined⟩

/-- The row pushed by the `custom` branch for an entry with date value `dv`,
template value `tv` and label value `lv`. -/
def mkCustomRow (pid : String) (dv tv lv : JSVal) : SessionRow :=
  ⟨pid, tv, dv, .undefined, .undefined, .undefined, "scheduled", lv⟩

/-- Body of the `weekly` while loop over the visited days.  `none` models a
`TypeError` thrown by `weeklySchedule[dayOfWeek]` (nullish payload), which
aborts the whole computation. -/
def weeklyLoop (sched : JSVal) (pid : String) : List CalDate → Option (List SessionRow)
  | [] => some []
  | t :: rest =>
    match jsGet sched (weekdayName t) with
    | none => none
    | some v =>
      match weeklyLoop sched pid rest with
      | none => none
      | some rows => some (if truthy v then mkWeeklyRow pid t v :: rows else rows)

/-- Body of the `monthly` while loop: week-of-month bucket
`Math.ceil(getDate() / 7)`, then the guarded double lookup
`monthlySchedule[weekOfMonth] && monthlySchedule[weekOfMonth][dayOfWeek]`. -/
def monthlyLoop (sched : JSVal) (pid : String) : List CalDate → Option (List SessionRow)
  | [] => some []
  | t :: rest =>
    let wk := (t.d + 6) / 7
    match jsGet sched (Nat.repr wk) with
    | none => none
    | some w =>
      if truthy w then
        match jsGet w (weekdayName t) with
        | none => none
        | some v =>
          match monthlyLoop sched pid rest with
          | none => none
          | some rows =>
            some (if truthy v then mkMonthlyRow pid t wk v :: rows else rows)
      else
        monthlyLoop sched pid rest

/-- Body of the `custom` branch's `forEach`: one push per entry having
truthy `date` and `templateId`; `none` models the `TypeError` thrown by
`customDay.date` on a nullish entry. -/
def customLoop (pid : String) : List JSVal → Option (List SessionRow)
  | [] => some []
  | c :: rest =>
    match jsGet c "date" with
    | none => none
    | some dv =>
      if truthy dv then
        match jsGet c "templateId" with
        | none => none
        | some tv =>
          if truthy tv then
            match jsGet c "label" with
            | none => none
            | some lv =>
              match customLoop pid rest with
              | none => none
              | some rows => some (mkCustomRow pid dv tv lv :: rows)
          else customLoop pid rest
      else customLoop pid rest

/-- The `WorkoutPlan` interface of `src/lib/workoutPlan.ts`. -/
structure WorkoutPlan where
  id : String
  client_id : String
  trainer_id : String
  name : String
  description : Option String
  start_date : String
  end_date : String
  schedule_type : String
  schedule_data : JSVal
  status : String
  created_at : String
  updated_at : String

/-- The `sessions` array built by `generatePlanSessions` before the insert;
`none` models an exception thrown while building (caught by the outer
`try`/`catch`). -/
def buildSessions (plan : WorkoutPlan) : Option (List SessionRow) :=
  if plan.schedule_type = "weekly" then
    match parseDate plan.start_date, parseDate plan.end_date with
    | some s, some e => weeklyLoop plan.schedule_data plan.id (dayList s e)
    | _, _ => some []
  else if plan.schedule_type = "monthly" then
    match parseDate plan.start_date, parseDate plan.end_date with
    | some s, some e => monthlyLoop plan.schedule_data plan.id (dayList s e)
    | _, _ => some []
  else if plan.schedule_type = "custom" then
    match plan.schedule_data with
    | .arr entries => customLoop plan.id entries
    | _ => some []
  else some []

/-- `generatePlanSessions`: build the rows, then batch-insert them when the
array is non-empty.  The persistence collaborator is the boolean oracle
`insertOk`; an exception while building, or an insert error, yields `false`. -/
def generatePlanSessions (insertOk : List SessionRow → Bool)
    (plan : WorkoutPlan) : Bool :=
  match buildSessions plan with
  | none => false
  | some sessions =>
    if sessions.isEmpty then true else insertOk sessions

/-- `generatePlanSessions` against a persisted-rows state: the batch insert
appends the built rows to the store (the expander performs no read of the
store and no uniqueness check before inserting). -/
def runGenerate (plan : WorkoutPlan) (store : List SessionRow) :
    Bool × List SessionRow :=
  match buildSessions plan with
  | none => (false, store)
  | some sessions =>
    if sessions.isEmpty then (true, store) else (true, store ++ sessions)

/-! Statement vocabulary: spec-side helpers used to state the claims. -/

/-- Total property read on a non-nullish receiver (`jsGet` cannot throw). -/
def jsGetD (v : JSVal) (k : String) : JSVal :=
  (jsGet v k).getD .undefined

/-- Lookup of a key in an embedded-object field list. -/
def objLookup (fields : List (String × JSVal)) (k : String) : Option JSVal :=
  (fields.find? (fun p => p.1 == k)).map (fun p => p.2)

/-- The per-day emission of the `weekly` branch, as one `Option`. -/
def weeklyEmit (sched : JSVal) (pid : String) (t : CalDate) : Option SessionRow :=
  let v := jsGetD sched (weekdayName t)
  if truthy v then some (mkWeeklyRow pid t v) else none

/-- The per-day emission of the `monthly` branch, as one `Option`. -/
def monthlyEmit (sched : JSVal) (pid : String) (t : CalDate) : Option SessionRow :=
  let wk := (t.d + 6) / 7
  let w := jsGetD sched (Nat.repr wk)
  if truthy w then
    let v := jsGetD w (weekdayName t)
    if truthy v then some (mkMonthlyRow pid t wk v) else none
  else none

/-- The per-entry emission of the `custom` branch, as one `Option`. -/
def customEmit (pid : String) (c : JSVal) : Option SessionRow :=
  let dv := jsGetD c "date"
  let tv := jsGetD c "templateId"
  let lv := jsGetD c "label"
  if truthy dv && truthy tv then some (mkCustomRow pid dv tv lv) else none

/-- A weekly recurrence payload in the shape the spec describes:
every value is a string (a template identifier). -/
def strMapWF (fields : List (String × JSVal)) : Prop :=
  ∀ p ∈ fields, ∃ s, p.2 = JSVal.str s

/-- A monthly recurrence payload in the shape the spec describes:
every value is itself a weekday-to-template-string object. -/
def monthWF (fields : List (String × JSVal)) : Prop :=
  ∀ p ∈ fields, ∃ inner, p.2 = JSVal.obj inner ∧ strMapWF inner

/-- Chronological strict order on two `scheduled_date` values, read back
through the ISO date decoding. -/
def jsvalDateLt (a b : JSVal) : Bool :=
  match a, b with
  | .str sa, .str sb =>
    match parseDate sa, parseDate sb with
    | some x, some z => dltD x z
    | _, _ => false
  | _, _ => false

/-- Chronological non-strict order on two `scheduled_date` values. -/
def jsvalDateLe (a b : JSVal) : Bool :=
  match a, b with
  | .str sa, .str sb =>
    match parseDate sa, parseDate sb with
    | some x, some z => dleD x z
    | _, _ => false
  | _, _ => false

/-- The row list is chronologically strictly ascending by `scheduled_date`. -/
def chronAsc (rows : List SessionRow) : Prop :=
  rows.Pairwise (fun a b => jsvalDateLt a.scheduled_date b.scheduled_date = true)

/-- Executable check that adjacent rows are non-strictly ascending by
`scheduled_date` (the weakest reading of the ordering claim). -/
def chronAscWeakB : List SessionRow → Bool
  | [] => true
  | [_] => true
  | a :: b :: rest =>
    jsvalDateLe a.scheduled_date b.scheduled_date && chronAscWeakB (b :: rest)

/-! Concrete instances used by the spec's testable properties and by the
counterexamples.  `WorkoutPlan` fields are, in order: id, client_id,
trainer_id, name, description, start_date, end_date, schedule_type,
schedule_data, status, created_at, updated_at. -/

/-- The weekly payload of testable property 1: Monday and Wednesday. -/
def wschedC1 : List (String × JSVal) :=
  [("Monday", .str "T1"), ("Wednesday", .str "T2")]

/-- The weekly plan of testable property 1: 2024-01-01 .. 2024-01-14. -/
def planC1x : WorkoutPlan :=
  ⟨"p1", "c1", "t1", "plan1", none, "2024-01-01", "2024-01-14", "weekly",
    .obj wschedC1, "active", "", ""⟩

/-- The four rows property 1 expects. -/
def rowsC1x : List SessionRow :=
  [⟨"p1", .str "T1", .str "2024-01-01", .undefined, .str "Monday", .undefined, "scheduled", .undefined⟩,
   ⟨"p1", .str "T2", .str "2024-01-03", .undefined, .str "Wednesday", .undefined, "scheduled", .undefined⟩,
   ⟨"p1", .str "T1", .str "2024-01-08", .undefined, .str "Monday", .undefined, "scheduled", .undefined⟩,
   ⟨"p1", .str "T2", .str "2024-01-10", .undefined, .str "Wednesday", .undefined, "scheduled", .undefined⟩]

/-- The monthly payload of testable property 3: week bucket 1, Friday. -/
def mschedC3 : List (String × JSVal) :=
  [("1", .obj [("Friday", .str "T1")])]

/-- The monthly plan of testable property 3: March 2024. -/
def planC3x : WorkoutPlan :=
  ⟨"p3", "c3", "t3", "plan3", none, "2024-03-01", "2024-03-31", "monthly",
    .obj mschedC3, "active", "", ""⟩

/-- The single row property 3 expects: Friday 2024-03-01, week bucket 1. -/
def rowC3x : SessionRow :=
  ⟨"p3", .str "T1", .str "2024-03-01", .undefined, .str "Friday", .num 1, "scheduled", .undefined⟩

/-- The custom plan of testable property 4: one explicit entry whose date
lies outside the declared plan range. -/
def planC4x : WorkoutPlan :=
  ⟨"p4", "c4", "t4", "plan4", none, "2024-01-01", "2024-01-02", "custom",
    .arr [.obj [("date", .str "2024-05-05"), ("templateId", .str "X"),
      ("label", .str "Cheat day")]], "active", "", ""⟩

/-- The single row property 4 expects. -/
def rowC4x : SessionRow :=
  ⟨"p4", .str "X", .str "2024-05-05", .undefined, .undefined, .undefined, "scheduled",
    .str "Cheat day"⟩

/-- A weekly plan with a nullish recurrence payload and a one-day range:
the first loop iteration reads a property of `null` and throws. -/
def planC6x : WorkoutPlan :=
  ⟨"p6", "c6", "t6", "plan6", none, "2024-01-01", "2024-01-01", "weekly",
    .null, "active", "", ""⟩

/-- A custom plan whose explicit entries are not in chronological order. -/
def planC7x : WorkoutPlan :=
  ⟨"p7", "c7", "t7", "plan7", none, "2024-01-01", "2024-12-31", "custom",
    .arr [.obj [("date", .str "2024-05-05"), ("templateId", .str "X")],
      .obj [("date", .str "2024-01-01"), ("templateId", .str "Y")]],
    "active", "", ""⟩

/-- The rows the custom plan above emits, in entry order (descending dates). -/
def rowsC7x : List SessionRow :=
  [⟨"p7", .str "X", .str "2024-05-05", .undefined, .undefined, .undefined, "scheduled", .undefined⟩,
   ⟨"p7", .str "Y", .str "2024-01-01", .undefined, .undefined, .undefined, "scheduled", .undefined⟩]

/-- An always-succeeding persistence oracle. -/
def alwaysOk : List SessionRow → Bool := fun _ => true

/-- A weekly plan whose declared range is empty (`end_date < start_date`). -/
def planC5x : WorkoutPlan :=
  ⟨"p5", "c5", "t5", "plan5", none, "2024-01-10", "2024-01-05", "weekly",
    .obj wschedC1, "active", "", ""⟩

/-- A weekly plan whose `start_date` does not parse as a calendar date. -/
def planC10x : WorkoutPlan :=
  ⟨"p10", "c10", "t10", "plan10", none, "not-a-date", "2024-01-31", "weekly",
    .null, "active", "", ""⟩

/-! Basic facts about the calendar embedding. -/

theorem daysInMonth_le (y m : Nat) : daysInMonth y m ≤ 31 := by
  unfold daysInMonth
  split_ifs <;> omega

theorem daysInMonth_pos (y m : Nat) : 1 ≤ daysInMonth y m := by
  unfold daysInMonth
  split_ifs <;> omega

theorem dleD_refl (a : CalDate) : dleD a a = true := by
  simp [dleD]

theorem dleD_of_dltD {a b : CalDate} (h : dltD a b = true) : dleD a b = true := by
  simp only [dltD, decide_eq_true_eq] at h
  simp only [dleD, decide_eq_true_eq]
  omega

theorem dleD_trans {a b c : CalDate} (h1 : dleD a b = true) (h2 : dleD b c = true) :
    dleD a c = true := by
  simp only [dleD, decide_eq_true_eq] at h1 h2 ⊢
  omega

theorem dltD_of_dltD_of_dleD {a b c : CalDate} (h1 : dltD a b = true)
    (h2 : dleD b c = true) : dltD a c = true := by
  simp only [dltD, dleD, decide_eq_true_eq] at h1 h2 ⊢
  omega

theorem dltD_of_dleD_of_dltD {a b c : CalDate} (h1 : dleD a b = true)
    (h2 : dltD b c = true) : dltD a c = true := by
  simp only [dltD, dleD, decide_eq_true_eq] at h1 h2 ⊢
  omega

theorem dltD_irrefl (a : CalDate) : dltD a a = false := by
  simp [dltD]

theorem ne_of_dltD {a b : CalDate} (h : dltD a b = true) : a ≠ b := by
  intro he
  subst he
  rw [dltD_irrefl] at h
  exact Bool.false_ne_true h

theorem dltD_of_dleD_of_ne {a b : CalDate} (h1 : dleD a b = true) (h2 : a ≠ b) :
    dltD a b = true := by
  rcases a with ⟨ay, am, ad⟩
  rcases b with ⟨by_, bm, bd⟩
  simp only [dleD, decide_eq_true_eq] at h1
  simp only [dltD, decide_eq_true_eq]
  by_cases hy : ay = by_
  · subst hy
    by_cases hm : am = bm
    · subst hm
      have hd : ad ≠ bd := by
        intro hd
        exact h2 (by rw [hd])
      omega
    · omega
  · omega

theorem dleD_false_of_dltD {a b : CalDate} (h : dltD b a = true) :
    dleD a b = false := by
  simp only [dltD, decide_eq_true_eq] at h
  simp only [dleD, decide_eq_false_iff_not, decide_eq_true_eq]
  omega

theorem dltD_nextDay (t : CalDate) : dltD t (nextDay t) = true := by
  rcases t with ⟨y, m, d⟩
  rw [nextDay]
  dsimp only
  split_ifs <;> simp only [dltD, decide_eq_true_eq, true_and] <;> omega

theorem dleD_nextDay (t : CalDate) : dleD t (nextDay t) = true :=
  dleD_of_dltD (dltD_nextDay t)

theorem nextDay_valid {t : CalDate} (h : validD t = true) :
    validD (nextDay t) = true := by
  rcases t with ⟨y, m, d⟩
  simp only [validD, decide_eq_true_eq] at h
  have hp1 := daysInMonth_pos y (m + 1)
  have hp2 := daysInMonth_pos (y + 1) 1
  rw [nextDay]
  dsimp only
  split_ifs with h1 h2 <;> simp only [validD, decide_eq_true_eq] <;> omega

theorem nextDay_min {t u : CalDate} (hu : validD u = true) (hlt : dltD t u = true) :
    dleD (nextDay t) u = true := by
  rcases t with ⟨y, m, d⟩
  rcases u with ⟨uy, um, ud⟩
  simp only [validD, decide_eq_true_eq] at hu
  simp only [dltD, decide_eq_true_eq] at hlt
  rw [nextDay]
  dsimp only
  split_ifs with h1 h2 <;> simp only [dleD, decide_eq_true_eq]
  · omega
  · rcases hlt with h | ⟨hy, h⟩
    · omega
    · subst hy
      rcases h with hm | ⟨hm, hd⟩
      · omega
      · subst hm
        omega
  · rcases hlt with h | ⟨hy, h⟩
    · omega
    · subst hy
      rcases h with hm | ⟨hm, hd⟩
      · omega
      · subst hm
        omega

theorem fuelD_nextDay_lt {cur last : CalDate} (h : dleD cur last = true) :
    fuelD (nextDay cur) last < fuelD cur last := by
  rcases cur with ⟨y, m, d⟩
  simp only [dleD, decide_eq_true_eq] at h
  have hdim := daysInMonth_le y m
  rw [nextDay]
  dsimp only
  split_ifs with h1 h2 <;> simp only [fuelD] <;> omega

/-! The day walk: soundness, completeness, ordering, and length bound. -/

theorem length_dayListF (f : Nat) :
    ∀ cur last, (dayListF f cur last).length ≤ f := by
  induction f with
  | zero =>
    intro cur last
    simp [dayListF]
  | succ f ih =>
    intro cur last
    rw [dayListF]
    split_ifs with hg
    · have := ih (nextDay cur) last
      simp only [List.length_cons]
      omega
    · simp

theorem mem_dayListF_lb (f : Nat) :
    ∀ cur last t, t ∈ dayListF f cur last → dleD cur t = true := by
  induction f with
  | zero =>
    intro cur last t h
    simp [dayListF] at h
  | succ f ih =>
    intro cur last t h
    rw [dayListF] at h
    split_ifs at h with hg
    · rcases List.mem_cons.mp h with heq | h2
      · subst heq
        exact dleD_refl t
      · exact dleD_trans (dleD_nextDay cur) (ih (nextDay cur) last t h2)
    · simp at h

theorem mem_dayListF_sound (f : Nat) :
    ∀ cur last t, validD cur = true → t ∈ dayListF f cur last →
      validD t = true ∧ dleD cur t = true ∧ dleD t last = true := by
  induction f with
  | zero =>
    intro cur last t _ h
    simp [dayListF] at h
  | succ f ih =>
    intro cur last t hv h
    rw [dayListF] at h
    split_ifs at h with hg
    · rcases List.mem_cons.mp h with heq | h2
      · subst heq
        exact ⟨hv, dleD_refl t, hg⟩
      · obtain ⟨h1, h2le, h3⟩ := ih (nextDay cur) last t (nextDay_valid hv) h2
        exact ⟨h1, dleD_trans (dleD_nextDay cur) h2le, h3⟩
    · simp at h

theorem mem_dayListF_complete (f : Nat) :
    ∀ cur last t, fuelD cur last ≤ f → validD cur = true → validD t = true →
      dleD cur t = true → dleD t last = true → t ∈ dayListF f cur last := by
  induction f with
  | zero =>
    intro cur last t hf _ _ hct htl
    exfalso
    have hcl : dleD cur last = true := dleD_trans hct htl
    rcases cur with ⟨cy, cm, cd⟩
    simp only [dleD, decide_eq_true_eq] at hcl
    simp only [fuelD] at hf
    omega
  | succ f ih =>
    intro cur last t hf hv hvt hct htl
    have hg : dleD cur last = true := dleD_trans hct htl
    rw [dayListF, if_pos hg]
    by_cases heq : cur = t
    · subst heq
      exact List.mem_cons_self _ _
    · have hlt : dltD cur t = true := dltD_of_dleD_of_ne hct heq
      have h2 : dleD (nextDay cur) t = true := nextDay_min hvt hlt
      apply List.mem_cons_of_mem
      apply ih (nextDay cur) last t ?_ (nextDay_valid hv) hvt h2 htl
      have := fuelD_nextDay_lt hg
      omega

theorem pairwise_dayListF (f : Nat) :
    ∀ cur last, (dayListF f cur last).Pairwise (fun a b => dltD a b = true) := by
  induction f with
  | zero =>
    intro cur last
    simp [dayListF]
  | succ f ih =>
    intro cur last
    rw [dayListF]
    split_ifs with hg
    · refine List.Pairwise.cons ?_ (ih (nextDay cur) last)
      intro b hb
      exact dltD_of_dltD_of_dleD (dltD_nextDay cur)
        (mem_dayListF_lb f (nextDay cur) last b hb)
    · exact List.Pairwise.nil

theorem mem_dayList {s e t : CalDate} (hv : validD s = true) :
    t ∈ dayList s e ↔ (validD t = true ∧ dleD s t = true ∧ dleD t e = true) := by
  constructor
  · exact fun h => mem_dayListF_sound _ _ _ _ hv h
  · rintro ⟨h1, h2, h3⟩
    exact mem_dayListF_complete _ _ _ _ (le_refl _) hv h1 h2 h3

theorem pairwise_dayList (s e : CalDate) :
    (dayList s e).Pairwise (fun a b => dltD a b = true) :=
  pairwise_dayListF _ _ _

theorem dayList_nil_of_lt {s e : CalDate} (h : dltD e s = true) : dayList s e = [] := by
  have hns : dleD s e = false := dleD_false_of_dltD h
  unfold dayList
  cases hf : fuelD s e with
  | zero => rfl
  | succ f => simp [dayListF, hns]

theorem length_dayList (s e : CalDate) : (dayList s e).length ≤ fuelD s e :=
  length_dayListF _ _ _

/-! Property access and the three per-branch loops. -/

theorem truthy_not_nullish {v : JSVal} (h : truthy v = true) : isNullish v = false := by
  cases v <;> simp_all [truthy, isNullish]

theorem jsGet_eq_some {v : JSVal} (h : isNullish v = false) (k : String) :
    jsGet v k = some (jsGetD v k) := by
  cases v <;> simp_all [isNullish, jsGet, jsGetD]

theorem weeklyLoop_eq {sched : JSVal} (h : isNullish sched = false) (pid : String) :
    ∀ days, weeklyLoop sched pid days = some (days.filterMap (weeklyEmit sched pid)) := by
  intro days
  induction days with
  | nil => rfl
  | cons t rest ih =>
    simp only [weeklyLoop, jsGet_eq_some h, ih, List.filterMap_cons]
    cases hb : truthy (jsGetD sched (weekdayName t)) <;> simp [weeklyEmit, hb]

theorem monthlyLoop_eq {sched : JSVal} (h : isNullish sched = false) (pid : String) :
    ∀ days, monthlyLoop sched pid days = some (days.filterMap (monthlyEmit sched pid)) := by
  intro days
  induction days with
  | nil => rfl
  | cons t rest ih =>
    simp only [monthlyLoop, jsGet_eq_some h, List.filterMap_cons]
    cases hw : truthy (jsGetD sched (Nat.repr ((t.d + 6) / 7))) with
    | false => simp [monthlyEmit, hw, ih]
    | true =>
      have hnn := truthy_not_nullish hw
      simp only [jsGet_eq_some hnn, ih]
      cases hb : truthy (jsGetD (jsGetD sched (Nat.repr ((t.d + 6) / 7))) (weekdayName t)) <;>
        simp [monthlyEmit, hw, hb]

theorem customLoop_eq (pid : String) :
    ∀ entries, (∀ c ∈ entries, isNullish c = false) →
      customLoop pid entries = some (entries.filterMap (customEmit pid)) := by
  intro entries
  induction entries with
  | nil =>
    intro _
    rfl
  | cons c rest ih =>
    intro hall
    have hc : isNullish c = false := hall c (List.mem_cons_self _ _)
    have hrest := ih (fun x hx => hall x (List.mem_cons_of_mem _ hx))
    simp only [customLoop, jsGet_eq_some hc, hrest, List.filterMap_cons]
    cases hd : truthy (jsGetD c "date") <;>
      cases ht : truthy (jsGetD c "templateId") <;> simp [customEmit, hd, ht]

theorem weeklyLoop_mem {sched : JSVal} {pid : String} :
    ∀ {days rows row}, weeklyLoop sched pid days = some rows → row ∈ rows →
      ∃ t v, truthy v = true ∧ row = mkWeeklyRow pid t v := by
  intro days
  induction days with
  | nil =>
    intro rows row h hr
    simp only [weeklyLoop, Option.some.injEq] at h
    subst h
    simp at hr
  | cons t rest ih =>
    intro rows row h hr
    rw [weeklyLoop] at h
    cases hj : jsGet sched (weekdayName t) with
    | none => simp [hj] at h
    | some v =>
      rw [hj] at h
      cases hl : weeklyLoop sched pid rest with
      | none => simp [hl] at h
      | some rs =>
        rw [hl] at h
        simp only [Option.some.injEq] at h
        subst h
        by_cases hv : truthy v = true
        · rw [if_pos hv] at hr
          rcases List.mem_cons.mp hr with heq | h2
          · exact ⟨t, v, hv, heq⟩
          · exact ih hl h2
        · rw [if_neg hv] at hr
          exact ih hl hr

theorem monthlyLoop_mem {sched : JSVal} {pid : String} :
    ∀ {days rows row}, monthlyLoop sched pid days = some rows → row ∈ rows →
      ∃ t v, truthy v = true ∧ row = mkMonthlyRow pid t ((t.d + 6) / 7) v := by
  intro days
  induction days with
  | nil =>
    intro rows row h hr
    simp only [monthlyLoop, Option.some.injEq] at h
    subst h
    simp at hr
  | cons t rest ih =>
    intro rows row h hr
    rw [monthlyLoop] at h
    cases hj : jsGet sched (Nat.repr ((t.d + 6) / 7)) with
    | none => simp [hj] at h
    | some w =>
      rw [hj] at h
      dsimp only at h
      by_cases hw : truthy w = true
      · rw [if_pos hw] at h
        cases hk : jsGet w (weekdayName t) with
        | none => simp [hk] at h
        | some v =>
          rw [hk] at h
          cases hl : monthlyLoop sched pid rest with
          | none => simp [hl] at h
          | some rs =>
            rw [hl] at h
            simp only [Option.some.injEq] at h
            subst h
            by_cases hv : truthy v = true
            · rw [if_pos hv] at hr
              rcases List.mem_cons.mp hr with heq | h2
              · exact ⟨t, v, hv, heq⟩
              · exact ih hl h2
            · rw [if_neg hv] at hr
              exact ih hl hr
      · rw [if_neg hw] at h
        exact ih h hr

theorem customLoop_mem {pid : String} :
    ∀ {entries rows row}, customLoop pid entries = some rows → row ∈ rows →
      ∃ dv tv lv, row = mkCustomRow pid dv tv lv := by
  intro entries
  induction entries with
  | nil =>
    intro rows row h hr
    simp only [customLoop, Option.some.injEq] at h
    subst h
    simp at hr
  | cons c rest ih =>
    intro rows row h hr
    rw [customLoop] at h
    cases hj : jsGet c "date" with
    | none => simp [hj] at h
    | some dv =>
      rw [hj] at h
      dsimp only at h
      by_cases hd : truthy dv = true
      · rw [if_pos hd] at h
        cases hk : jsGet c "templateId" with
        | none => simp [hk] at h
        | some tv =>
          rw [hk] at h
          dsimp only at h
          by_cases ht : truthy tv = true
          · rw [if_pos ht] at h
            cases hm : jsGet c "label" with
            | none => simp [hm] at h
            | some lv =>
              rw [hm] at h
              cases hl : customLoop pid rest with
              | none => simp [hl] at h
              | some rs =>
                rw [hl] at h
                simp only [Option.some.injEq] at h
                subst h
                rcases List.mem_cons.mp hr with heq | h2
                · exact ⟨dv, tv, lv, heq⟩
                · exact ih hl h2
          · rw [if_neg ht] at h
            exact ih h hr
      · rw [if_neg hd] at h
        exact ih h hr

theorem weeklyLoop_length {sched : JSVal} {pid : String} :
    ∀ {days rows}, weeklyLoop sched pid days = some rows →
      rows.length ≤ days.length := by
  intro days
  induction days with
  | nil =>
    intro rows h
    simp only [weeklyLoop, Option.some.injEq] at h
    subst h
    simp
  | cons t rest ih =>
    intro rows h
    rw [weeklyLoop] at h
    cases hj : jsGet sched (weekdayName t) with
    | none => simp [hj] at h
    | some v =>
      rw [hj] at h
      cases hl : weeklyLoop sched pid rest with
      | none => simp [hl] at h
      | some rs =>
        rw [hl] at h
        simp only [Option.some.injEq] at h
        subst h
        have := ih hl
        by_cases hv : truthy v = true
        · rw [if_pos hv]
          simp only [List.length_cons]
          omega
        · rw [if_neg hv]
          simp only [List.length_cons]
          omega

theorem monthlyLoop_length {sched : JSVal} {pid : String} :
    ∀ {days rows}, monthlyLoop sched pid days = some rows →
      rows.length ≤ days.length := by
  intro days
  induction days with
  | nil =>
    intro rows h
    simp only [monthlyLoop, Option.some.injEq] at h
    subst h
    simp
  | cons t rest ih =>
    intro rows h
    rw [monthlyLoop] at h
    cases hj : jsGet sched (Nat.repr ((t.d + 6) / 7)) with
    | none => simp [hj] at h
    | some w =>
      rw [hj] at h
      dsimp only at h
      by_cases hw : truthy w = true
      · rw [if_pos hw] at h
        cases hk : jsGet w (weekdayName t) with
        | none => simp [hk] at h
        | some v =>
          rw [hk] at h
          cases hl : monthlyLoop sched pid rest with
          | none => simp [hl] at h
          | some rs =>
            rw [hl] at h
            simp only [Option.some.injEq] at h
            subst h
            have := ih hl
            by_cases hv : truthy v = true
            · rw [if_pos hv]
              simp only [List.length_cons]
              omega
            · rw [if_neg hv]
              simp only [List.length_cons]
              omega
      · rw [if_neg hw] at h
        have := ih h
        simp only [List.length_cons]
        omega

/-! The ISO date format and its parse round trip. -/

theorem isDigitC_digitChar (n : Nat) : isDigitC (digitChar n) = true := by
  unfold digitChar
  split_ifs <;> decide

theorem digitVal_digitChar (n : Nat) : digitVal (digitChar n) = n % 10 := by
  unfold digitChar
  split_ifs with h0 h1 h2 h3 h4 h5 h6 h7 h8
  · rw [h0]; decide
  · rw [h1]; decide
  · rw [h2]; decide
  · rw [h3]; decide
  · rw [h4]; decide
  · rw [h5]; decide
  · rw [h6]; decide
  · rw [h7]; decide
  · rw [h8]; decide
  · have h9 : n % 10 = 9 := by omega
    rw [h9]; decide

theorem digitVal_le {c : Char} (h : isDigitC c = true) : digitVal c ≤ 9 := by
  simp only [isDigitC, decide_eq_true_eq] at h
  unfold digitVal
  omega

theorem parseDateL_valid {cs : List Char} {t : CalDate}
    (h : parseDateL cs = some t) : validD t = true ∧ t.y ≤ 9999 := by
  unfold parseDateL at h
  split at h
  case h_2 => exact absurd h (by simp)
  case h_1 y1 y2 y3 y4 h1c m1 m2 h2c d1 d2 =>
    by_cases hcond : (h1c == '-' && h2c == '-' && isDigitC y1 && isDigitC y2 &&
        isDigitC y3 && isDigitC y4 && isDigitC m1 && isDigitC m2 &&
        isDigitC d1 && isDigitC d2) = true
    · rw [if_pos hcond] at h
      dsimp only at h
      by_cases hvd : validD ⟨digitVal y1 * 1000 + digitVal y2 * 100 +
          digitVal y3 * 10 + digitVal y4, digitVal m1 * 10 + digitVal m2,
          digitVal d1 * 10 + digitVal d2⟩ = true
      · rw [if_pos hvd] at h
        simp only [Option.some.injEq] at h
        subst h
        refine ⟨hvd, ?_⟩
        simp only [Bool.and_eq_true] at hcond
        have e1 := digitVal_le hcond.1.1.1.1.1.1.1.2
        have e2 := digitVal_le hcond.1.1.1.1.1.1.2
        have e3 := digitVal_le hcond.1.1.1.1.1.2
        have e4 := digitVal_le hcond.1.1.1.1.2
        dsimp only
        omega
      · rw [if_neg hvd] at h
        exact absurd h (by simp)
    · rw [if_neg hcond] at h
      exact absurd h (by simp)

theorem parseDate_valid {s : String} {t : CalDate} (h : parseDate s = some t) :
    validD t = true ∧ t.y ≤ 9999 :=
  parseDateL_valid h

theorem parse_isoFormat {t : CalDate} (hv : validD t = true) (hy : t.y ≤ 9999) :
    parseDate (isoFormat t) = some t := by
  rcases t with ⟨y, m, d⟩
  simp only [validD, decide_eq_true_eq] at hv
  obtain ⟨hm1, hm2, hd1, hd4⟩ := hv
  have hy9 : y ≤ 9999 := hy
  have hd31 : d ≤ 31 := le_trans hd4 (daysInMonth_le y m)
  have hdata : (isoFormat ⟨y, m, d⟩).data =
      [digitChar (y / 1000), digitChar (y / 100), digitChar (y / 10), digitChar y,
        '-', digitChar (m / 10), digitChar m, '-', digitChar (d / 10), digitChar d] := rfl
  rw [parseDate, hdata]
  rw [parseDateL]
  rw [if_pos]
  · have hY : digitVal (digitChar (y / 1000)) * 1000 + digitVal (digitChar (y / 100)) * 100 +
        digitVal (digitChar (y / 10)) * 10 + digitVal (digitChar y) = y := by
      simp only [digitVal_digitChar]
      omega
    have hM : digitVal (digitChar (m / 10)) * 10 + digitVal (digitChar m) = m := by
      simp only [digitVal_digitChar]
      omega
    have hD : digitVal (digitChar (d / 10)) * 10 + digitVal (digitChar d) = d := by
      simp only [digitVal_digitChar]
      omega
    dsimp only
    rw [hY, hM, hD]
    rw [if_pos]
    simp only [validD, decide_eq_true_eq]
    exact ⟨hm1, hm2, hd1, hd4⟩
  · simp only [isDigitC_digitChar, Bool.and_true, Bool.true_and]
    decide

/-! Characterization of the per-day emissions on well-shaped payloads. -/

theorem jsGetD_obj (fields : List (String × JSVal)) (k : String) :
    jsGetD (.obj fields) k = (objLookup fields k).getD .undefined := rfl

theorem objLookup_mem {fields : List (String × JSVal)} {k : String} {v : JSVal}
    (h : objLookup fields k = some v) : ∃ p ∈ fields, p.2 = v := by
  unfold objLookup at h
  cases hf : fields.find? (fun p => p.1 == k) with
  | none =>
    rw [hf] at h
    exact absurd h (by simp)
  | some p =>
    rw [hf] at h
    simp only [Option.map_some', Option.some.injEq] at h
    exact ⟨p, List.mem_of_find?_eq_some hf, h⟩

theorem weeklyEmit_obj_iff {fields : List (String × JSVal)} {pid : String}
    {t : CalDate} {row : SessionRow} (hWF : strMapWF fields) :
    weeklyEmit (.obj fields) pid t = some row ↔
      ∃ tid, objLookup fields (weekdayName t) = some (JSVal.str tid) ∧ tid ≠ "" ∧
        row = mkWeeklyRow pid t (JSVal.str tid) := by
  unfold weeklyEmit
  rw [jsGetD_obj]
  cases hlk : objLookup fields (weekdayName t) with
  | none =>
    simp [truthy]
  | some v =>
    obtain ⟨p, hp, hpv⟩ := objLookup_mem hlk
    obtain ⟨s, hs⟩ := hWF p hp
    rw [hs] at hpv
    subst hpv
    by_cases hse : s = ""
    · subst hse
      simp [truthy]
    · have ht : truthy (JSVal.str s) = true := by simp [truthy, hse]
      simp only [Option.getD_some, ht, if_true, Option.some.injEq, JSVal.str.injEq]
      constructor
      · intro h
        exact ⟨s, rfl, hse, h.symm⟩
      · rintro ⟨tid, htid, hne, hrow⟩
        rw [← htid] at hrow
        exact hrow.symm

theorem monthlyEmit_obj_iff {fields : List (String × JSVal)} {pid : String}
    {t : CalDate} {row : SessionRow} (hWF : monthWF fields) :
    monthlyEmit (.obj fields) pid t = some row ↔
      ∃ inner tid, objLookup fields (Nat.repr ((t.d + 6) / 7)) = some (JSVal.obj inner) ∧
        objLookup inner (weekdayName t) = some (JSVal.str tid) ∧ tid ≠ "" ∧
        row = mkMonthlyRow pid t ((t.d + 6) / 7) (JSVal.str tid) := by
  unfold monthlyEmit
  dsimp only
  rw [jsGetD_obj]
  cases hlk : objLookup fields (Nat.repr ((t.d + 6) / 7)) with
  | none =>
    simp [truthy]
  | some w =>
    obtain ⟨p, hp, hpv⟩ := objLookup_mem hlk
    obtain ⟨inner, hinner, hinnerWF⟩ := hWF p hp
    rw [hinner] at hpv
    subst hpv
    have hw : truthy (JSVal.obj inner) = true := rfl
    simp only [Option.getD_some, hw, if_true]
    rw [jsGetD_obj]
    cases hlk2 : objLookup inner (weekdayName t) with
    | none =>
      simp only [Option.getD_none, truthy, Bool.false_eq_true, if_false]
      simp only [Option.some.injEq, JSVal.obj.injEq]
      constructor
      · intro h
        exact absurd h (by simp)
      · rintro ⟨inner2, tid, hin2, htid, hne, hrow⟩
        subst hin2
        rw [hlk2] at htid
        exact absurd htid (by simp)
    | some v =>
      obtain ⟨q, hq, hqv⟩ := objLookup_mem hlk2
      obtain ⟨s, hs⟩ := hinnerWF q hq
      rw [hs] at hqv
      subst hqv
      by_cases hse : s = ""
      · subst hse
        have hf : truthy (JSVal.str "") = false := rfl
        simp only [Option.getD_some, hf, Bool.false_eq_true, if_false,
          Option.some.injEq, JSVal.obj.injEq]
        constructor
        · intro h
          exact absurd h (by simp)
        · rintro ⟨inner2, tid, hin2, htid, hne, hrow⟩
          subst hin2
          rw [hlk2] at htid
          simp only [Option.some.injEq, JSVal.str.injEq] at htid
          exact absurd htid.symm hne
      · have ht : truthy (JSVal.str s) = true := by simp [truthy, hse]
        simp only [Option.getD_some, ht, if_true, Option.some.injEq, JSVal.obj.injEq,
          JSVal.str.injEq]
        constructor
        · intro h
          exact ⟨inner, s, rfl, hlk2, hse, h.symm⟩
        · rintro ⟨inner2, tid, hin2, htid, hne, hrow⟩
          subst hin2
          rw [hlk2] at htid
          simp only [Option.some.injEq, JSVal.str.injEq] at htid
          subst htid
          exact hrow.symm

/-! From the branch loops to `buildSessions`. -/

theorem buildSessions_weekly_loop {plan : WorkoutPlan} {s e : CalDate}
    (htype : plan.schedule_type = "weekly")
    (hs : parseDate plan.start_date = some s) (he : parseDate plan.end_date = some e) :
    buildSessions plan = weeklyLoop plan.schedule_data plan.id (dayList s e) := by
  unfold buildSessions
  rw [htype, if_pos rfl, hs, he]

theorem buildSessions_monthly_loop {plan : WorkoutPlan} {s e : CalDate}
    (htype : plan.schedule_type = "monthly")
    (hs : parseDate plan.start_date = some s) (he : parseDate plan.end_date = some e) :
    buildSessions plan = monthlyLoop plan.schedule_data plan.id (dayList s e) := by
  unfold buildSessions
  rw [htype, if_neg (by decide), if_pos rfl, hs, he]

theorem buildSessions_weekly_none {plan : WorkoutPlan}
    (htype : plan.schedule_type = "weekly")
    (h : parseDate plan.start_date = none ∨ parseDate plan.end_date = none) :
    buildSessions plan = some [] := by
  unfold buildSessions
  rw [htype, if_pos rfl]
  rcases h with h | h
  · rw [h]
  · rw [h]
    cases parseDate plan.start_date <;> rfl

theorem buildSessions_monthly_none {plan : WorkoutPlan}
    (htype : plan.schedule_type = "monthly")
    (h : parseDate plan.start_date = none ∨ parseDate plan.end_date = none) :
    buildSessions plan = some [] := by
  unfold buildSessions
  rw [htype, if_neg (by decide), if_pos rfl]
  rcases h with h | h
  · rw [h]
  · rw [h]
    cases parseDate plan.start_date <;> rfl

theorem buildSessions_weekly {plan : WorkoutPlan} {s e : CalDate}
    (htype : plan.schedule_type = "weekly")
    (hs : parseDate plan.start_date = some s) (he : parseDate plan.end_date = some e)
    (hnn : isNullish plan.schedule_data = false) :
    buildSessions plan =
      some ((dayList s e).filterMap (weeklyEmit plan.schedule_data plan.id)) := by
  rw [buildSessions_weekly_loop htype hs he]
  exact weeklyLoop_eq hnn plan.id (dayList s e)

theorem buildSessions_monthly {plan : WorkoutPlan} {s e : CalDate}
    (htype : plan.schedule_type = "monthly")
    (hs : parseDate plan.start_date = some s) (he : parseDate plan.end_date = some e)
    (hnn : isNullish plan.schedule_data = false) :
    buildSessions plan =
      some ((dayList s e).filterMap (monthlyEmit plan.schedule_data plan.id)) := by
  rw [buildSessions_monthly_loop htype hs he]
  exact monthlyLoop_eq hnn plan.id (dayList s e)

theorem buildSessions_custom_eq {plan : WorkoutPlan}
    (htype : plan.schedule_type = "custom") :
    buildSessions plan = (match plan.schedule_data with
      | .arr entries => customLoop plan.id entries
      | _ => some []) := by
  unfold buildSessions
  rw [htype, if_neg (by decide), if_neg (by decide), if_pos rfl]

theorem buildSessions_custom {plan : WorkoutPlan} {entries : List JSVal}
    (htype : plan.schedule_type = "custom")
    (hsd : plan.schedule_data = .arr entries)
    (hents : ∀ c ∈ entries, isNullish c = false) :
    buildSessions plan = some (entries.filterMap (customEmit plan.id)) := by
  rw [buildSessions_custom_eq htype, hsd]
  exact customLoop_eq plan.id entries hents

theorem buildSessions_other {plan : WorkoutPlan}
    (h1 : plan.schedule_type ≠ "weekly") (h2 : plan.schedule_type ≠ "monthly")
    (h3 : plan.schedule_type ≠ "custom") :
    buildSessions plan = some [] := by
  unfold buildSessions
  rw [if_neg h1, if_neg h2, if_neg h3]

theorem weeklyLoop_nullish {sched : JSVal} {pid : String} {t : CalDate}
    {rest : List CalDate} (h : isNullish sched = true) :
    weeklyLoop sched pid (t :: rest) = none := by
  cases sched
  case null => rfl
  case undefined => rfl
  all_goals simp [isNullish] at h

theorem monthlyLoop_nullish {sched : JSVal} {pid : String} {t : CalDate}
    {rest : List CalDate} (h : isNullish sched = true) :
    monthlyLoop sched pid (t :: rest) = none := by
  cases sched
  case null => rfl
  case undefined => rfl
  all_goals simp [isNullish] at h

theorem buildSessions_total {plan : WorkoutPlan}
    (hnn : isNullish plan.schedule_data = false)
    (hents : ∀ entries, plan.schedule_data = .arr entries →
      ∀ c ∈ entries, isNullish c = false) :
    ∃ rows, buildSessions plan = some rows := by
  by_cases h1 : plan.schedule_type = "weekly"
  · cases hps : parseDate plan.start_date with
    | none => exact ⟨[], buildSessions_weekly_none h1 (Or.inl hps)⟩
    | some s =>
      cases hpe : parseDate plan.end_date with
      | none => exact ⟨[], buildSessions_weekly_none h1 (Or.inr hpe)⟩
      | some e => exact ⟨_, buildSessions_weekly h1 hps hpe hnn⟩
  · by_cases h2 : plan.schedule_type = "monthly"
    · cases hps : parseDate plan.start_date with
      | none => exact ⟨[], buildSessions_monthly_none h2 (Or.inl hps)⟩
      | some s =>
        cases hpe : parseDate plan.end_date with
        | none => exact ⟨[], buildSessions_monthly_none h2 (Or.inr hpe)⟩
        | some e => exact ⟨_, buildSessions_monthly h2 hps hpe hnn⟩
    · by_cases h3 : plan.schedule_type = "custom"
      · cases hsd : plan.schedule_data with
        | arr entries => exact ⟨_, buildSessions_custom h3 hsd (hents entries hsd)⟩
        | str s => rw [buildSessions_custom_eq h3, hsd]; exact ⟨[], rfl⟩
        | num n => rw [buildSessions_custom_eq h3, hsd]; exact ⟨[], rfl⟩
        | bool b => rw [buildSessions_custom_eq h3, hsd]; exact ⟨[], rfl⟩
        | null => rw [buildSessions_custom_eq h3, hsd]; exact ⟨[], rfl⟩
        | undefined => rw [buildSessions_custom_eq h3, hsd]; exact ⟨[], rfl⟩
        | obj fields => rw [buildSessions_custom_eq h3, hsd]; exact ⟨[], rfl⟩
      · exact ⟨[], buildSessions_other h1 h2 h3⟩

theorem weeklyEmit_sd {sched : JSVal} {pid : String} {t : CalDate} {row : SessionRow}
    (h : weeklyEmit sched pid t = some row) :
    row.scheduled_date = .str (isoFormat t) := by
  unfold weeklyEmit at h
  dsimp only at h
  split_ifs at h
  simp only [Option.some.injEq] at h
  subst h
  rfl

theorem monthlyEmit_sd {sched : JSVal} {pid : String} {t : CalDate} {row : SessionRow}
    (h : monthlyEmit sched pid t = some row) :
    row.scheduled_date = .str (isoFormat t) := by
  unfold monthlyEmit at h
  dsimp only at h
  split_ifs at h
  simp only [Option.some.injEq] at h
  subst h
  rfl

theorem y_le_of_dleD {a b : CalDate} (h : dleD a b = true) : a.y ≤ b.y := by
  simp only [dleD, decide_eq_true_eq] at h
  omega

theorem jsvalDateLt_irrefl (v : JSVal) : jsvalDateLt v v = false := by
  cases v
  case str s =>
    show (match parseDate s, parseDate s with
      | some x, some z => dltD x z
      | _, _ => false) = false
    cases hp : parseDate s with
    | none => rfl
    | some t => exact dltD_irrefl t
  all_goals rfl

/-- Chronological order and date distinctness of a day-walk `filterMap`. -/
theorem chron_filterMap {s e : CalDate} {f : CalDate → Option SessionRow}
    (hvs : validD s = true) (hye : e.y ≤ 9999)
    (hsd : ∀ t row, f t = some row → row.scheduled_date = .str (isoFormat t)) :
    chronAsc ((dayList s e).filterMap f) ∧
      (((dayList s e).filterMap f).map (fun r => r.scheduled_date)).Nodup := by
  have hchron : chronAsc ((dayList s e).filterMap f) := by
    rw [chronAsc, List.pairwise_filterMap]
    apply List.Pairwise.imp_of_mem ?_ (pairwise_dayList s e)
    intro a b ha hb hab
    intro x hx y hy
    obtain ⟨hva, hsa, hae⟩ := (mem_dayList hvs).mp ha
    obtain ⟨hvb, hsb, hbe⟩ := (mem_dayList hvs).mp hb
    have hya : a.y ≤ 9999 := le_trans (y_le_of_dleD hae) hye
    have hyb : b.y ≤ 9999 := le_trans (y_le_of_dleD hbe) hye
    rw [hsd a x (Option.mem_def.mp hx), hsd b y (Option.mem_def.mp hy)]
    show (match parseDate (isoFormat a), parseDate (isoFormat b) with
      | some x, some z => dltD x z
      | _, _ => false) = true
    rw [parse_isoFormat hva hya, parse_isoFormat hvb hyb]
    exact hab
  refine ⟨hchron, ?_⟩
  rw [List.Nodup, List.pairwise_map]
  apply hchron.imp
  intro a b hab heq
  rw [heq] at hab
  rw [jsvalDateLt_irrefl] at hab
  exact Bool.false_ne_true hab

/-- Full characterization of a weekly expansion over a string-valued
weekday map: membership, order, and no repeated day. -/
theorem weekly_char {plan : WorkoutPlan} {s e : CalDate}
    {fields : List (String × JSVal)}
    (htype : plan.schedule_type = "weekly")
    (hs : parseDate plan.start_date = some s) (he : parseDate plan.end_date = some e)
    (hsd : plan.schedule_data = .obj fields) (hWF : strMapWF fields) :
    ∃ rows, buildSessions plan = some rows ∧
      (∀ row, row ∈ rows ↔ ∃ t tid, validD t = true ∧ dleD s t = true ∧
          dleD t e = true ∧
          objLookup fields (weekdayName t) = some (JSVal.str tid) ∧ tid ≠ "" ∧
          row = mkWeeklyRow plan.id t (JSVal.str tid)) ∧
      chronAsc rows ∧ (rows.map (fun r => r.scheduled_date)).Nodup := by
  have hvs := (parseDate_valid hs).1
  have hye := (parseDate_valid he).2
  have hnn : isNullish plan.schedule_data = false := by
    rw [hsd]
    rfl
  refine ⟨(dayList s e).filterMap (weeklyEmit plan.schedule_data plan.id),
    buildSessions_weekly htype hs he hnn, ?_, ?_⟩
  · intro row
    rw [List.mem_filterMap]
    constructor
    · rintro ⟨t, htmem, hemit⟩
      obtain ⟨hvt, hst, hte⟩ := (mem_dayList hvs).mp htmem
      rw [hsd] at hemit
      obtain ⟨tid, h1, h2, h3⟩ := (weeklyEmit_obj_iff hWF).mp hemit
      exact ⟨t, tid, hvt, hst, hte, h1, h2, h3⟩
    · rintro ⟨t, tid, hvt, hst, hte, h1, h2, h3⟩
      refine ⟨t, (mem_dayList hvs).mpr ⟨hvt, hst, hte⟩, ?_⟩
      rw [hsd]
      exact (weeklyEmit_obj_iff hWF).mpr ⟨tid, h1, h2, h3⟩
  · exact chron_filterMap hvs hye (fun t row h => weeklyEmit_sd h)

/-- Full characterization of a monthly expansion over a week-bucket map of
string-valued weekday maps. -/
theorem monthly_char {plan : WorkoutPlan} {s e : CalDate}
    {fields : List (String × JSVal)}
    (htype : plan.schedule_type = "monthly")
    (hs : parseDate plan.start_date = some s) (he : parseDate plan.end_date = some e)
    (hsd : plan.schedule_data = .obj fields) (hWF : monthWF fields) :
    ∃ rows, buildSessions plan = some rows ∧
      (∀ row, row ∈ rows ↔ ∃ t inner tid, validD t = true ∧ dleD s t = true ∧
          dleD t e = true ∧
          objLookup fields (Nat.repr ((t.d + 6) / 7)) = some (JSVal.obj inner) ∧
          objLookup inner (weekdayName t) = some (JSVal.str tid) ∧ tid ≠ "" ∧
          row = mkMonthlyRow plan.id t ((t.d + 6) / 7) (JSVal.str tid)) ∧
      chronAsc rows ∧ (rows.map (fun r => r.scheduled_date)).Nodup := by
  have hvs := (parseDate_valid hs).1
  have hye := (parseDate_valid he).2
  have hnn : isNullish plan.schedule_data = false := by
    rw [hsd]
    rfl
  refine ⟨(dayList s e).filterMap (monthlyEmit plan.schedule_data plan.id),
    buildSessions_monthly htype hs he hnn, ?_, ?_⟩
  · intro row
    rw [List.mem_filterMap]
    constructor
    · rintro ⟨t, htmem, hemit⟩
      obtain ⟨hvt, hst, hte⟩ := (mem_dayList hvs).mp htmem
      rw [hsd] at hemit
      obtain ⟨inner, tid, h1, h2, h3, h4⟩ := (monthlyEmit_obj_iff hWF).mp hemit
      exact ⟨t, inner, tid, hvt, hst, hte, h1, h2, h3, h4⟩
    · rintro ⟨t, inner, tid, hvt, hst, hte, h1, h2, h3, h4⟩
      refine ⟨t, (mem_dayList hvs).mpr ⟨hvt, hst, hte⟩, ?_⟩
      rw [hsd]
      exact (monthlyEmit_obj_iff hWF).mpr ⟨inner, tid, h1, h2, h3, h4⟩
  · exact chron_filterMap hvs hye (fun t row h => monthlyEmit_sd h)

/-! Well-shapedness of the concrete payloads. -/

theorem wschedC1_WF : strMapWF wschedC1 := by
  intro p hp
  simp only [wschedC1, List.mem_cons, List.not_mem_nil, or_false] at hp
  rcases hp with rfl | rfl
  · exact ⟨"T1", rfl⟩
  · exact ⟨"T2", rfl⟩

theorem mschedC3_WF : monthWF mschedC3 := by
  intro p hp
  simp only [mschedC3, List.mem_cons, List.not_mem_nil, or_false] at hp
  subst hp
  refine ⟨[("Friday", .str "T1")], rfl, ?_⟩
  intro q hq
  simp only [List.mem_cons, List.not_mem_nil, or_false] at hq
  subst hq
  exact ⟨"T1", rfl⟩

/-! The claims. -/

/-- C1: for every weekly plan with parsed dates `start_date <= end_date` and
a weekday-to-template-string payload, the built rows are exactly one row per
calendar day in range whose weekday name maps to a non-empty template string,
with `template_id` the mapped value, `day_of_week` the weekday name, and
`week_number` absent (all visible in `mkWeeklyRow`); no date repeats.  In
particular the 2024-01-01..2024-01-14 Monday/Wednesday plan emits exactly the
four expected rows. -/
theorem claim_C1 :
    (∀ (plan : WorkoutPlan) (s e : CalDate) (fields : List (String × JSVal)),
      plan.schedule_type = "weekly" →
      parseDate plan.start_date = some s →
      parseDate plan.end_date = some e →
      dleD s e = true →
      plan.schedule_data = .obj fields →
      strMapWF fields →
      ∃ rows, buildSessions plan = some rows ∧
        (∀ row, row ∈ rows ↔ ∃ t tid, validD t = true ∧ dleD s t = true ∧
            dleD t e = true ∧
            objLookup fields (weekdayName t) = some (JSVal.str tid) ∧ tid ≠ "" ∧
            row = mkWeeklyRow plan.id t (JSVal.str tid)) ∧
        (rows.map (fun r => r.scheduled_date)).Nodup) ∧
    buildSessions planC1x = some rowsC1x := by
  constructor
  · intro plan s e fields htype hs he hrange hsd hWF
    obtain ⟨rows, h1, h2, h3, h4⟩ := weekly_char htype hs he hsd hWF
    exact ⟨rows, h1, h2, h4⟩
  · rfl

/-- Witness for C1 at the concrete Monday/Wednesday plan. -/
theorem claim_C1_witness :
    ∃ rows, buildSessions planC1x = some rows ∧
      (∀ row, row ∈ rows ↔ ∃ t tid, validD t = true ∧
          dleD ⟨2024, 1, 1⟩ t = true ∧ dleD t ⟨2024, 1, 14⟩ = true ∧
          objLookup wschedC1 (weekdayName t) = some (JSVal.str tid) ∧ tid ≠ "" ∧
          row = mkWeeklyRow planC1x.id t (JSVal.str tid)) ∧
      (rows.map (fun r => r.scheduled_date)).Nodup :=
  claim_C1.1 planC1x ⟨2024, 1, 1⟩ ⟨2024, 1, 14⟩ wschedC1 rfl rfl rfl rfl rfl
    wschedC1_WF

/-- C2: for weekly and monthly plans with well-shaped payloads the built row
set is exactly the days in `[start, end]` whose payload entry matches (no
repeated day, every row inside the range), and a custom plan's rows are
exactly its explicit well-formed entries, in order. -/
theorem claim_C2 :
    ∀ plan : WorkoutPlan,
      (∀ (s e : CalDate) (fields : List (String × JSVal)),
        plan.schedule_type = "weekly" →
        parseDate plan.start_date = some s →
        parseDate plan.end_date = some e →
        plan.schedule_data = .obj fields →
        strMapWF fields →
        ∃ rows, buildSessions plan = some rows ∧
          (∀ row, row ∈ rows ↔ ∃ t tid, validD t = true ∧ dleD s t = true ∧
              dleD t e = true ∧
              objLookup fields (weekdayName t) = some (JSVal.str tid) ∧ tid ≠ "" ∧
              row = mkWeeklyRow plan.id t (JSVal.str tid)) ∧
          (rows.map (fun r => r.scheduled_date)).Nodup) ∧
      (∀ (s e : CalDate) (fields : List (String × JSVal)),
        plan.schedule_type = "monthly" →
        parseDate plan.start_date = some s →
        parseDate plan.end_date = some e →
        plan.schedule_data = .obj fields →
        monthWF fields →
        ∃ rows, buildSessions plan = some rows ∧
          (∀ row, row ∈ rows ↔ ∃ t inner tid, validD t = true ∧ dleD s t = true ∧
              dleD t e = true ∧
              objLookup fields (Nat.repr ((t.d + 6) / 7)) = some (JSVal.obj inner) ∧
              objLookup inner (weekdayName t) = some (JSVal.str tid) ∧ tid ≠ "" ∧
              row = mkMonthlyRow plan.id t ((t.d + 6) / 7) (JSVal.str tid)) ∧
          (rows.map (fun r => r.scheduled_date)).Nodup) ∧
      (∀ entries : List JSVal,
        plan.schedule_type = "custom" →
        plan.schedule_data = .arr entries →
        (∀ c ∈ entries, isNullish c = false) →
        buildSessions plan = some (entries.filterMap (customEmit plan.id))) := by
  intro plan
  refine ⟨?_, ?_, ?_⟩
  · intro s e fields htype hs he hsd hWF
    obtain ⟨rows, h1, h2, h3, h4⟩ := weekly_char htype hs he hsd hWF
    exact ⟨rows, h1, h2, h4⟩
  · intro s e fields htype hs he hsd hWF
    obtain ⟨rows, h1, h2, h3, h4⟩ := monthly_char htype hs he hsd hWF
    exact ⟨rows, h1, h2, h4⟩
  · intro entries htype hsd hents
    exact buildSessions_custom htype hsd hents

/-- Witness for C2: the custom conjunct at the two-entry custom plan. -/
theorem claim_C2_witness :
    buildSessions planC7x = some
      (([.obj [("date", .str "2024-05-05"), ("templateId", .str "X")],
        .obj [("date", .str "2024-01-01"), ("templateId", .str "Y")]] :
          List JSVal).filterMap (customEmit planC7x.id)) :=
  (claim_C2 planC7x).2.2 _ rfl rfl (by
    intro c hc
    rcases List.mem_cons.mp hc with rfl | hc2
    · rfl
    · rcases List.mem_cons.mp hc2 with rfl | hc3
      · rfl
      · simp at hc3)

/-- C3: for every monthly plan with parsed dates `start <= end` and a
week-bucket map of weekday-to-template-string maps, a day emits a row exactly
when `schedule_data[ceil(day/7)][weekday]` is a non-empty string; the row
carries `template_id`, `day_of_week` and `week_number = ceil(day/7)` (visible
in `mkMonthlyRow`), and every emitted `week_number` lies in 1..5.  Concretely
the March 2024 plan with bucket 1 / Friday emits exactly 2024-03-01. -/
theorem claim_C3 :
    (∀ (plan : WorkoutPlan) (s e : CalDate) (fields : List (String × JSVal)),
      plan.schedule_type = "monthly" →
      parseDate plan.start_date = some s →
      parseDate plan.end_date = some e →
      dleD s e = true →
      plan.schedule_data = .obj fields →
      monthWF fields →
      ∃ rows, buildSessions plan = some rows ∧
        (∀ row, row ∈ rows ↔ ∃ t inner tid, validD t = true ∧ dleD s t = true ∧
            dleD t e = true ∧
            objLookup fields (Nat.repr ((t.d + 6) / 7)) = some (JSVal.obj inner) ∧
            objLookup inner (weekdayName t) = some (JSVal.str tid) ∧ tid ≠ "" ∧
            row = mkMonthlyRow plan.id t ((t.d + 6) / 7) (JSVal.str tid)) ∧
        (∀ row ∈ rows, ∃ wk : Nat, row.week_number = JSVal.num wk ∧
          1 ≤ wk ∧ wk ≤ 5)) ∧
    buildSessions planC3x = some [rowC3x] := by
  constructor
  · intro plan s e fields htype hs he hrange hsd hWF
    obtain ⟨rows, h1, h2, h3, h4⟩ := monthly_char htype hs he hsd hWF
    refine ⟨rows, h1, h2, ?_⟩
    intro row hrow
    obtain ⟨t, inner, tid, hvt, _, _, _, _, _, hroweq⟩ := (h2 row).mp hrow
    subst hroweq
    refine ⟨(t.d + 6) / 7, rfl, ?_, ?_⟩
    · simp only [validD, decide_eq_true_eq] at hvt
      omega
    · simp only [validD, decide_eq_true_eq] at hvt
      have := daysInMonth_le t.y t.m
      omega
  · rfl

/-- Witness for C3 at the concrete March 2024 plan. -/
theorem claim_C3_witness :
    ∃ rows, buildSessions planC3x = some rows ∧
      (∀ row, row ∈ rows ↔ ∃ t inner tid, validD t = true ∧
          dleD ⟨2024, 3, 1⟩ t = true ∧ dleD t ⟨2024, 3, 31⟩ = true ∧
          objLookup mschedC3 (Nat.repr ((t.d + 6) / 7)) = some (JSVal.obj inner) ∧
          objLookup inner (weekdayName t) = some (JSVal.str tid) ∧ tid ≠ "" ∧
          row = mkMonthlyRow planC3x.id t ((t.d + 6) / 7) (JSVal.str tid)) ∧
      (∀ row ∈ rows, ∃ wk : Nat, row.week_number = JSVal.num wk ∧
        1 ≤ wk ∧ wk ≤ 5) :=
  claim_C3.1 planC3x ⟨2024, 3, 1⟩ ⟨2024, 3, 31⟩ mschedC3 rfl rfl rfl rfl rfl
    mschedC3_WF

/-- C4: for every custom plan whose payload is a list of non-nullish entries,
the day walk is ignored and exactly one row is emitted per entry with truthy
`date` and `templateId`, copying `date`, `templateId` and `label` verbatim
(visible in `customEmit`/`mkCustomRow`), with no range validation.  The
concrete plan with a 2024-05-05 entry outside its declared January range
emits exactly that row. -/
theorem claim_C4 :
    (∀ (plan : WorkoutPlan) (entries : List JSVal),
      plan.schedule_type = "custom" →
      plan.schedule_data = .arr entries →
      (∀ c ∈ entries, isNullish c = false) →
      buildSessions plan = some (entries.filterMap (customEmit plan.id))) ∧
    buildSessions planC4x = some [rowC4x] := by
  constructor
  · intro plan entries htype hsd hents
    exact buildSessions_custom htype hsd hents
  · rfl

/-- Witness for C4 at the concrete out-of-range custom plan. -/
theorem claim_C4_witness :
    buildSessions planC4x = some
      (([.obj [("date", .str "2024-05-05"), ("templateId", .str "X"),
        ("label", .str "Cheat day")]] : List JSVal).filterMap
          (customEmit planC4x.id)) :=
  claim_C4.1 planC4x _ rfl rfl (by
    intro c hc
    rcases List.mem_cons.mp hc with rfl | hc2
    · rfl
    · simp at hc2)

/-- C5: a weekly or monthly plan whose parsed `end_date` precedes its
`start_date` builds an empty row sequence and reports success for every
persistence oracle (so no insert is consulted), regardless of payload. -/
theorem claim_C5 :
    ∀ (plan : WorkoutPlan) (s e : CalDate) (oracle : List SessionRow → Bool),
      (plan.schedule_type = "weekly" ∨ plan.schedule_type = "monthly") →
      parseDate plan.start_date = some s →
      parseDate plan.end_date = some e →
      dltD e s = true →
      buildSessions plan = some [] ∧ generatePlanSessions oracle plan = true := by
  intro plan s e oracle htype hs he hlt
  have hnil : dayList s e = [] := dayList_nil_of_lt hlt
  have hb : buildSessions plan = some [] := by
    rcases htype with ht | ht
    · rw [buildSessions_weekly_loop ht hs he, hnil]
      rfl
    · rw [buildSessions_monthly_loop ht hs he, hnil]
      rfl
  refine ⟨hb, ?_⟩
  unfold generatePlanSessions
  rw [hb]
  rfl

/-- Witness for C5 at a concrete reversed-range weekly plan, with an oracle
that rejects every insert (success still reported: no insert happens). -/
theorem claim_C5_witness :
    buildSessions planC5x = some [] ∧
      generatePlanSessions (fun _ => false) planC5x = true :=
  claim_C5 planC5x ⟨2024, 1, 10⟩ ⟨2024, 1, 5⟩ (fun _ => false) (Or.inl rfl)
    rfl rfl rfl

/-- C6 counterexample: a weekly plan with `schedule_data = null` and a
one-day range makes `generatePlanSessions` return `false` although the
persistence oracle always succeeds — the claimed "returns false only when
the insert fails" is violated (the first loop iteration's property read of
`null` throws, and the catch converts it to `false`). -/
theorem claim_C6_counterexample :
    generatePlanSessions alwaysOk planC6x = false ∧
      ∀ rows, alwaysOk rows = true :=
  ⟨rfl, fun _ => rfl⟩

/-- C6 amended: when `schedule_data` is non-nullish (and, for an entry-list
payload, its entries are non-nullish) the build never throws, and the result
is `false` exactly when the rows are non-empty and the insert fails;
malformed payloads of any other shape degrade silently to empty output. -/
theorem claim_C6_amended :
    ∀ (plan : WorkoutPlan) (oracle : List SessionRow → Bool),
      isNullish plan.schedule_data = false →
      (∀ entries, plan.schedule_data = .arr entries →
        ∀ c ∈ entries, isNullish c = false) →
      ∃ rows, buildSessions plan = some rows ∧
        (generatePlanSessions oracle plan = false ↔
          (rows ≠ [] ∧ oracle rows = false)) := by
  intro plan oracle hnn hents
  obtain ⟨rows, hb⟩ := buildSessions_total hnn hents
  refine ⟨rows, hb, ?_⟩
  unfold generatePlanSessions
  rw [hb]
  cases rows with
  | nil => simp
  | cons a l =>
    cases horacle : oracle (a :: l) <;> simp [horacle]

/-- Witness for C6 (amended) at the Monday/Wednesday weekly plan with an
always-succeeding oracle. -/
theorem claim_C6_witness :
    ∃ rows, buildSessions planC1x = some rows ∧
      (generatePlanSessions alwaysOk planC1x = false ↔
        (rows ≠ [] ∧ alwaysOk rows = false)) :=
  claim_C6_amended planC1x alwaysOk rfl (by
    intro entries h
    simp [planC1x] at h)

/-- C7 counterexample: a custom plan whose entry list is not in date order
is expanded in entry order, so the built sequence is not even weakly
ascending by `scheduled_date`. -/
theorem claim_C7_counterexample :
    buildSessions planC7x = some rowsC7x ∧ chronAscWeakB rowsC7x = false :=
  ⟨rfl, rfl⟩

/-- C7 amended: for weekly and monthly plans (the branches that perform the
day walk) every built sequence is chronologically strictly ascending by
`scheduled_date`; a custom plan instead preserves its entry-list order (see
the custom conjunct of the C2/C4 theorems). -/
theorem claim_C7_amended :
    ∀ (plan : WorkoutPlan) (s e : CalDate) (rows : List SessionRow),
      (plan.schedule_type = "weekly" ∨ plan.schedule_type = "monthly") →
      parseDate plan.start_date = some s →
      parseDate plan.end_date = some e →
      buildSessions plan = some rows → chronAsc rows := by
  intro plan s e rows htype hs he hb
  have hvs := (parseDate_valid hs).1
  have hye := (parseDate_valid he).2
  by_cases hnn : isNullish plan.schedule_data = false
  · rcases htype with ht | ht
    · rw [buildSessions_weekly ht hs he hnn] at hb
      simp only [Option.some.injEq] at hb
      subst hb
      exact (chron_filterMap hvs hye (fun t row h => weeklyEmit_sd h)).1
    · rw [buildSessions_monthly ht hs he hnn] at hb
      simp only [Option.some.injEq] at hb
      subst hb
      exact (chron_filterMap hvs hye (fun t row h => monthlyEmit_sd h)).1
  · have hnt : isNullish plan.schedule_data = true := by
      cases hx : isNullish plan.schedule_data
      · exact absurd hx hnn
      · rfl
    cases hdl : dayList s e with
    | nil =>
      rcases htype with ht | ht
      · rw [buildSessions_weekly_loop ht hs he, hdl] at hb
        simp only [weeklyLoop, Option.some.injEq] at hb
        subst hb
        exact List.Pairwise.nil
      · rw [buildSessions_monthly_loop ht hs he, hdl] at hb
        simp only [monthlyLoop, Option.some.injEq] at hb
        subst hb
        exact List.Pairwise.nil
    | cons t rest =>
      rcases htype with ht | ht
      · rw [buildSessions_weekly_loop ht hs he, hdl, weeklyLoop_nullish hnt] at hb
        exact absurd hb (by simp)
      · rw [buildSessions_monthly_loop ht hs he, hdl, monthlyLoop_nullish hnt] at hb
        exact absurd hb (by simp)

/-- Witness for C7 (amended) at the Monday/Wednesday weekly plan. -/
theorem claim_C7_witness : chronAsc rowsC1x :=
  claim_C7_amended planC1x ⟨2024, 1, 1⟩ ⟨2024, 1, 14⟩ rowsC1x (Or.inl rfl)
    rfl rfl rfl

/-- C8: the expander never reads the persisted rows — its appended delta and
its boolean result are independent of the store — so running it twice
without an intervening delete appends the built rows twice: afterwards every
row predicate counts the built rows exactly twice on top of the old store. -/
theorem claim_C8 :
    ∀ (plan : WorkoutPlan) (store rows : List SessionRow),
      buildSessions plan = some rows →
      (runGenerate plan store).2 = store ++ rows ∧
      (runGenerate plan ((runGenerate plan store).2)).2 = store ++ rows ++ rows ∧
      (∀ p : SessionRow → Bool,
        (runGenerate plan ((runGenerate plan store).2)).2.countP p =
          store.countP p + 2 * rows.countP p) := by
  intro plan store rows hb
  have hrun : ∀ st : List SessionRow, (runGenerate plan st).2 = st ++ rows := by
    intro st
    unfold runGenerate
    rw [hb]
    cases rows with
    | nil => simp
    | cons a l => simp
  refine ⟨hrun store, ?_, ?_⟩
  · rw [hrun, hrun]
  · intro p
    rw [hrun, hrun]
    simp only [List.countP_append]
    omega

/-- Witness for C8 at the Monday/Wednesday weekly plan over an empty store. -/
theorem claim_C8_witness :
    (runGenerate planC1x []).2 = [] ++ rowsC1x ∧
      (runGenerate planC1x ((runGenerate planC1x []).2)).2 =
        [] ++ rowsC1x ++ rowsC1x ∧
      (∀ p : SessionRow → Bool,
        (runGenerate planC1x ((runGenerate planC1x []).2)).2.countP p =
          ([] : List SessionRow).countP p + 2 * rowsC1x.countP p) :=
  claim_C8 planC1x [] rowsC1x rfl

/-- C9 counterexample: the monthly branch also sets `day_of_week` — the
March 2024 monthly plan emits a row with `day_of_week = "Friday"` — so
"only the weekly branch sets day_of_week" is false on the code. -/
theorem claim_C9_counterexample :
    buildSessions planC3x = some [rowC3x] ∧
      planC3x.schedule_type = "monthly" ∧
      rowC3x.day_of_week = JSVal.str "Friday" ∧
      rowC3x.day_of_week ≠ JSVal.undefined :=
  ⟨rfl, rfl, rfl, fun h => JSVal.noConfusion h⟩

/-- C9 amended: every built row has status `scheduled` and the plan's id;
custom rows carry neither `day_of_week` nor `week_number`; weekly rows carry
`day_of_week` but no `week_number`; monthly rows carry both. -/
theorem claim_C9_amended :
    ∀ (plan : WorkoutPlan) (rows : List SessionRow) (row : SessionRow),
      buildSessions plan = some rows → row ∈ rows →
      row.status = "scheduled" ∧ row.plan_id = plan.id ∧
      (plan.schedule_type = "custom" →
        row.day_of_week = JSVal.undefined ∧ row.week_number = JSVal.undefined) ∧
      (plan.schedule_type = "weekly" →
        row.day_of_week ≠ JSVal.undefined ∧ row.week_number = JSVal.undefined) ∧
      (plan.schedule_type = "monthly" →
        row.day_of_week ≠ JSVal.undefined ∧ row.week_number ≠ JSVal.undefined) := by
  intro plan rows row hb hrow
  by_cases h1 : plan.schedule_type = "weekly"
  · have hrowshape : ∃ t v, truthy v = true ∧ row = mkWeeklyRow plan.id t v := by
      cases hps : parseDate plan.start_date with
      | none =>
        rw [buildSessions_weekly_none h1 (Or.inl hps)] at hb
        simp only [Option.some.injEq] at hb
        subst hb
        exact absurd hrow (by simp)
      | some s =>
        cases hpe : parseDate plan.end_date with
        | none =>
          rw [buildSessions_weekly_none h1 (Or.inr hpe)] at hb
          simp only [Option.some.injEq] at hb
          subst hb
          exact absurd hrow (by simp)
        | some e =>
          rw [buildSessions_weekly_loop h1 hps hpe] at hb
          exact weeklyLoop_mem hb hrow
    obtain ⟨t, v, htr, hroweq⟩ := hrowshape
    subst hroweq
    refine ⟨rfl, rfl, ?_, ?_, ?_⟩
    · intro hc
      exact absurd (h1.symm.trans hc) (by decide)
    · intro _
      exact ⟨fun h => JSVal.noConfusion h, rfl⟩
    · intro hc
      exact absurd (h1.symm.trans hc) (by decide)
  · by_cases h2 : plan.schedule_type = "monthly"
    · have hrowshape : ∃ t v, truthy v = true ∧
          row = mkMonthlyRow plan.id t ((t.d + 6) / 7) v := by
        cases hps : parseDate plan.start_date with
        | none =>
          rw [buildSessions_monthly_none h2 (Or.inl hps)] at hb
          simp only [Option.some.injEq] at hb
          subst hb
          exact absurd hrow (by simp)
        | some s =>
          cases hpe : parseDate plan.end_date with
          | none =>
            rw [buildSessions_monthly_none h2 (Or.inr hpe)] at hb
            simp only [Option.some.injEq] at hb
            subst hb
            exact absurd hrow (by simp)
          | some e =>
            rw [buildSessions_monthly_loop h2 hps hpe] at hb
            exact monthlyLoop_mem hb hrow
      obtain ⟨t, v, htr, hroweq⟩ := hrowshape
      subst hroweq
      refine ⟨rfl, rfl, ?_, ?_, ?_⟩
      · intro hc
        exact absurd (h2.symm.trans hc) (by decide)
      · intro hc
        exact absurd (h2.symm.trans hc) (by decide)
      · intro _
        exact ⟨fun h => JSVal.noConfusion h, fun h => JSVal.noConfusion h⟩
    · by_cases h3 : plan.schedule_type = "custom"
      · have hrowshape : ∃ dv tv lv, row = mkCustomRow plan.id dv tv lv := by
          rw [buildSessions_custom_eq h3] at hb
          cases hsd : plan.schedule_data with
          | arr entries =>
            rw [hsd] at hb
            exact customLoop_mem hb hrow
          | str s =>
            rw [hsd] at hb
            simp only [Option.some.injEq] at hb
            subst hb
            exact absurd hrow (by simp)
          | num n =>
            rw [hsd] at hb
            simp only [Option.some.injEq] at hb
            subst hb
            exact absurd hrow (by simp)
          | bool b =>
            rw [hsd] at hb
            simp only [Option.some.injEq] at hb
            subst hb
            exact absurd hrow (by simp)
          | null =>
            rw [hsd] at hb
            simp only [Option.some.injEq] at hb
            subst hb
            exact absurd hrow (by simp)
          | undefined =>
            rw [hsd] at hb
            simp only [Option.some.injEq] at hb
            subst hb
            exact absurd hrow (by simp)
          | obj fields =>
            rw [hsd] at hb
            simp only [Option.some.injEq] at hb
            subst hb
            exact absurd hrow (by simp)
        obtain ⟨dv, tv, lv, hroweq⟩ := hrowshape
        subst hroweq
        refine ⟨rfl, rfl, ?_, ?_, ?_⟩
        · intro _
          exact ⟨rfl, rfl⟩
        · intro hc
          exact absurd (h3.symm.trans hc) (by decide)
        · intro hc
          exact absurd (h3.symm.trans hc) (by decide)
      · rw [buildSessions_other h1 h2 h3] at hb
        simp only [Option.some.injEq] at hb
        subst hb
        exact absurd hrow (by simp)

/-- Witness for C9 (amended) at the March 2024 monthly plan's single row. -/
theorem claim_C9_witness :
    rowC3x.status = "scheduled" ∧ rowC3x.plan_id = planC3x.id ∧
      (planC3x.schedule_type = "custom" →
        rowC3x.day_of_week = JSVal.undefined ∧ rowC3x.week_number = JSVal.undefined) ∧
      (planC3x.schedule_type = "weekly" →
        rowC3x.day_of_week ≠ JSVal.undefined ∧ rowC3x.week_number = JSVal.undefined) ∧
      (planC3x.schedule_type = "monthly" →
        rowC3x.day_of_week ≠ JSVal.undefined ∧ rowC3x.week_number ≠ JSVal.undefined) :=
  claim_C9_amended planC3x [rowC3x] rowC3x rfl (List.mem_cons_self _ _)

/-- C10: the day walk terminates on every input — the embedding is a total
function whose output is bounded by the range's day measure (`fuelD`, which
strictly decreases each iteration) — and when either plan date fails to
parse, the weekly/monthly walk is vacuous and builds no session. -/
theorem claim_C10 :
    ∀ plan : WorkoutPlan,
      (plan.schedule_type = "weekly" ∨ plan.schedule_type = "monthly") →
      ((parseDate plan.start_date = none ∨ parseDate plan.end_date = none) →
        buildSessions plan = some []) ∧
      (∀ (s e : CalDate) (rows : List SessionRow),
        parseDate plan.start_date = some s →
        parseDate plan.end_date = some e →
        buildSessions plan = some rows →
        rows.length ≤ fuelD s e) := by
  intro plan htype
  constructor
  · intro hnone
    rcases htype with ht | ht
    · exact buildSessions_weekly_none ht hnone
    · exact buildSessions_monthly_none ht hnone
  · intro s e rows hs he hb
    rcases htype with ht | ht
    · rw [buildSessions_weekly_loop ht hs he] at hb
      exact le_trans (weeklyLoop_length hb) (length_dayList s e)
    · rw [buildSessions_monthly_loop ht hs he] at hb
      exact le_trans (monthlyLoop_length hb) (length_dayList s e)

/-- Witness for C10 at a weekly plan whose start date does not parse. -/
theorem claim_C10_witness : buildSessions planC10x = some [] :=
  (claim_C10 planC10x (Or.inl rfl)).1 (Or.inl rfl)

end FitApp
